import Mathlib

/-!
Shallow embedding of the archive codec in `src/save.rs` of barotool.

The compressed stream collaborator (`libflate::gzip::Decoder`) is modelled at
its interface boundary as the decompressed byte sequence: `read` into a buffer
of size `n` delivers `min n remaining` bytes and 0 exactly when the stream is
exhausted.  Bytes and UTF-16 code units are `Nat`s (< 2^8 resp. < 2^16 where
it matters).  Member names are `List Char` (Rust `&str` is a sequence of
Unicode scalar values, as is Lean `Char`).  Loops whose termination depends on
stream contents (`finish_current_member`, the `list`/`unpack` drivers,
`std::io::copy`) are written with explicit fuel; `none` means the loop did not
finish within the given fuel.
-/

/-- Mirror of the `std::io::Error` values produced by the codec:
`UnexpectedEof` (from `read_u32` and byteorder's exact reads), `InvalidData`
(UTF-16 decoding failure) and `Other` (the two oversize errors in `pack`). -/
inductive IOError where
  | unexpectedEof (msg : String)
  | invalidData
  | other (msg : String)
deriving DecidableEq, Repr

/-- Little-endian bytes of a `u32` as written by
`WriteBytesExt::write_u32::<LittleEndian>`. -/
def u32le (n : Nat) : List Nat :=
  [n % 256, n / 256 % 256, n / 65536 % 256, n / 16777216 % 256]

/-- Little-endian bytes of a `u16` as written by
`WriteBytesExt::write_u16::<LittleEndian>`. -/
def u16le (n : Nat) : List Nat :=
  [n % 256, n / 256 % 256]

/-- Value of a little-endian byte sequence (`u32::from_le_bytes` and friends). -/
def leVal (bs : List Nat) : Nat :=
  bs.foldr (fun b acc => b + 256 * acc) 0

/-- Group a byte list into little-endian 16-bit code units, as byteorder's
`read_u16_into::<LittleEndian>` interprets the bytes it read. -/
def bytesToU16s : List Nat → List Nat
  | b0 :: b1 :: rest => (b0 + 256 * b1) :: bytesToU16s rest
  | _ => []

/-- UTF-16 code units of one Unicode scalar value, as Rust's
`char::encode_utf16`: one unit below U+10000, a surrogate pair above. -/
def encodeUtf16Char (c : Char) : List Nat :=
  if c.toNat < 65536 then [c.toNat]
  else
    let v := c.toNat - 65536
    [55296 + v / 1024, 56320 + v % 1024]

/-- UTF-16 code units of a string, as `str::encode_utf16().collect()`. -/
def encodeUtf16Str (s : List Char) : List Nat :=
  s.flatMap encodeUtf16Char

/-- UTF-16 decoding, as `String::from_utf16`: a high surrogate must be
followed by a low surrogate; a lone surrogate of either kind is an error. -/
def decodeUtf16 : List Nat → Option (List Char)
  | [] => some []
  | u :: rest =>
    if u < 55296 ∨ 57344 ≤ u then
      (decodeUtf16 rest).map (fun cs => Char.ofNat u :: cs)
    else if u < 56320 then
      match rest with
      | u2 :: rest2 =>
        if 56320 ≤ u2 ∧ u2 < 57344 then
          (decodeUtf16 rest2).map
            (fun cs => Char.ofNat (65536 + (u - 55296) * 1024 + (u2 - 56320)) :: cs)
        else none
      | [] => none
    else none

/-- Reader state (`ArchiveReader`): the remaining decompressed byte stream and
`member_bytes_left`, the bytes of the current member's body not yet consumed. -/
structure ArchiveReader where
  stream : List Nat
  member_bytes_left : Nat
deriving DecidableEq, Repr

/-- Model of `ArchiveReader::read_u32`: under the maximal-delivery stream model the
read loop collapses to three cases — an empty stream before the first byte
yields `None`, one to three available bytes yield `UnexpectedEof` (the second
loop iteration reads 0 bytes with the buffer partly filled), four or more
yield the little-endian value of the first four bytes. -/
def ArchiveReader.read_u32 (r : ArchiveReader) :
    Except IOError (Option Nat × ArchiveReader) :=
  if r.stream.length = 0 then .ok (none, r)
  else if r.stream.length < 4 then
    .error (.unexpectedEof "EOF within archive member")
  else .ok (some (leVal (r.stream.take 4)), ⟨r.stream.drop 4, r.member_bytes_left⟩)

/-- One fuelled unfolding of the loop in `ArchiveReader::finish_current_member`:
each iteration asks the decoder for `min 4096 member_bytes_left` bytes and
subtracts however many arrived.  `none` means the loop did not terminate
within `fuel` iterations (at stream end the decoder returns 0 and the state
no longer changes). -/
def finishAux : Nat → ArchiveReader → Option ArchiveReader
  | 0, r => if r.member_bytes_left = 0 then some r else none
  | fuel + 1, r =>
    if r.member_bytes_left = 0 then some r
    else
      let to_read := min 4096 r.member_bytes_left
      let bytes_read := min to_read r.stream.length
      finishAux fuel ⟨r.stream.drop bytes_read, r.member_bytes_left - bytes_read⟩

/-- Header data carried by a `Member` handle: the decoded name and the
declared size. -/
structure MemberInfo where
  name : List Char
  size : Nat
deriving DecidableEq, Repr

/-- Model of `ArchiveReader::next` given fuel for the auto-skip loop: finish the
current member, read the name length (`None` at clean EOF), read and decode
the UTF-16 name (byteorder's `read_u16_into` fails with `UnexpectedEof` when
fewer than `2 * name_length` bytes remain; a decode failure is `InvalidData`),
then read the body size (byteorder's `read_u32`, `UnexpectedEof` below four
bytes) and set `member_bytes_left` to it. -/
def ArchiveReader.nextWithFuel (fuel : Nat) (r : ArchiveReader) :
    Option (Except IOError (Option (MemberInfo × ArchiveReader))) :=
  match finishAux fuel r with
  | none => none
  | some r1 =>
    match r1.read_u32 with
    | .error e => some (.error e)
    | .ok (none, _) => some (.ok none)
    | .ok (some name_length, r2) =>
      if 2 * name_length ≤ r2.stream.length then
        let units := bytesToU16s (r2.stream.take (2 * name_length))
        let r3 : ArchiveReader := ⟨r2.stream.drop (2 * name_length), r2.member_bytes_left⟩
        match decodeUtf16 units with
        | none => some (.error .invalidData)
        | some name =>
          if 4 ≤ r3.stream.length then
            let size := leVal (r3.stream.take 4)
            some (.ok (some (⟨name, size⟩, ⟨r3.stream.drop 4, size⟩)))
          else some (.error (.unexpectedEof "failed to fill whole buffer"))
      else some (.error (.unexpectedEof "failed to fill whole buffer"))

/-- Model of `ArchiveReader::next` with the canonical skip fuel: one loop iteration per
remaining body byte always suffices when the stream actually holds those
bytes, and runs the state to its sticky EOF fixpoint otherwise. -/
def ArchiveReader.next (r : ArchiveReader) :
    Option (Except IOError (Option (MemberInfo × ArchiveReader))) :=
  r.nextWithFuel r.member_bytes_left

/-- Model of `<Member as Read>::read` on a buffer of length `bufLen`: request
`min bufLen member_bytes_left` bytes from the decoder, receive the bytes it
can deliver, and subtract their count from `member_bytes_left`.  Returns the
delivered bytes (the filled buffer portion) and the updated reader. -/
def memberRead (r : ArchiveReader) (bufLen : Nat) : List Nat × ArchiveReader :=
  let to_read := min bufLen r.member_bytes_left
  let data := r.stream.take to_read
  (data, ⟨r.stream.drop to_read, r.member_bytes_left - data.length⟩)

/-- The two `ErrorKind::Other` failures `pack` can raise on its own. -/
inductive PackError where
  | nameTooLong
  | memberTooLarge
deriving DecidableEq, Repr

/-- Model of `pack` over an in-memory member list (name, body): for each member write
the UTF-16 name length and code units, then the body length and body, in
order; fail with "Member name too long" before writing any byte of a member
whose code-unit count does not fit a `u32`, and with "Member too large" after
the name but before the size field when the body length does not fit.
Returns the bytes written to the stream and the error, if any. -/
def packMembers : List (List Char × List Nat) → List Nat × Option PackError
  | [] => ([], none)
  | (name, body) :: rest =>
    let units := encodeUtf16Str name
    if 4294967296 ≤ units.length then ([], some .nameTooLong)
    else
      let nameBytes := u32le units.length ++ units.flatMap u16le
      if 4294967296 ≤ body.length then (nameBytes, some .memberTooLarge)
      else
        let memberBytes := nameBytes ++ u32le body.length ++ body
        let (restBytes, err) := packMembers rest
        (memberBytes ++ restBytes, err)

/-- Wire encoding of one member, per the format
`NameLen:u32 NameUTF16LE[NameLen] BodyLen:u32 Body[BodyLen]`. -/
def memberBytes (m : List Char × List Nat) : List Nat :=
  u32le (encodeUtf16Str m.1).length ++ (encodeUtf16Str m.1).flatMap u16le ++
    u32le m.2.length ++ m.2

/-- Wire encoding of a whole archive (the decompressed stream `pack`
produces when every member is within bounds). -/
def archiveBytes (ms : List (List Char × List Nat)) : List Nat :=
  (ms.map memberBytes).flatten

/-- In-bounds condition for one member: its name's UTF-16 code-unit count and
its body length both fit the 32-bit wire fields. -/
def memberOK (m : List Char × List Nat) : Prop :=
  (encodeUtf16Str m.1).length < 4294967296 ∧ m.2.length < 4294967296

/-- The driver loop of `list`: call `next` until it yields `None`, collecting
each member's name and declared size in order (the body is never read; the
auto-skip inside the following `next` discards it).  Outer `none` means some
loop failed to terminate within its fuel. -/
def listAux : Nat → ArchiveReader → Option (Except IOError (List (List Char × Nat)))
  | 0, _ => none
  | fuel + 1, r =>
    match r.next with
    | none => none
    | some (.error e) => some (.error e)
    | some (.ok none) => some (.ok [])
    | some (.ok (some (m, r1))) =>
      match listAux fuel r1 with
      | none => none
      | some (.error e) => some (.error e)
      | some (.ok rest) => some (.ok ((m.name, m.size) :: rest))

/-- Model of `list` on a decompressed archive stream.  One outer iteration per stream
byte plus one is always enough fuel, since every parsed member consumes at
least eight stream bytes. -/
def listArchive (archive : List Nat) : Option (Except IOError (List (List Char × Nat))) :=
  listAux (archive.length + 1) ⟨archive, 0⟩

/-- Model of `std::io::copy(&mut member, &mut writer)` with its 8192-byte buffer:
repeatedly `read` and append until a read returns 0 bytes.  Returns the bytes
copied to the output file and the reader afterwards; `none` means the loop
did not finish within `fuel` iterations. -/
def copyAux : Nat → ArchiveReader → Option (List Nat × ArchiveReader)
  | 0, _ => none
  | fuel + 1, r =>
    let (data, r1) := memberRead r 8192
    if data.length = 0 then some ([], r1)
    else
      match copyAux fuel r1 with
      | none => none
      | some (rest, r2) => some (data ++ rest, r2)

/-- The driver loop of `unpack`: for each member, if `extract_all` is set the
selection set is not consulted (Rust's `||` short-circuits past
`members.remove`); otherwise the member is extracted exactly when its name is
in the set, which then loses that name.  Extraction copies the full body to a
file named after the member; a skipped member's body is discarded by the
auto-skip inside the following `next`.  Returns the ordered (name, body)
writes and the residual set. -/
def unpackAux (extract_all : Bool) :
    Nat → ArchiveReader → Finset (List Char) →
    Option (Except IOError (List (List Char × List Nat) × Finset (List Char)))
  | 0, _, _ => none
  | fuel + 1, r, sel =>
    match r.next with
    | none => none
    | some (.error e) => some (.error e)
    | some (.ok none) => some (.ok ([], sel))
    | some (.ok (some (m, r1))) =>
      if extract_all ∨ m.name ∈ sel then
        let sel1 := if extract_all then sel else sel.erase m.name
        match copyAux (r1.member_bytes_left + 1) r1 with
        | none => none
        | some (body, r2) =>
          match unpackAux extract_all fuel r2 sel1 with
          | none => none
          | some (.error e) => some (.error e)
          | some (.ok (ws, res)) => some (.ok ((m.name, body) :: ws, res))
      else unpackAux extract_all fuel r1 sel

/-- Model of `unpack` on a decompressed archive stream with a selection set:
`extract_all` is decided once, on entry, by whether the set is empty. -/
def unpackArchive (archive : List Nat) (sel : Finset (List Char)) :
    Option (Except IOError (List (List Char × List Nat) × Finset (List Char))) :=
  unpackAux (sel = ∅) (archive.length + 1) ⟨archive, 0⟩ sel

/-- Modelled from the spec (section 4.4 Unpack), for comparison with the
code's `unpackAux`: "if the set is empty, or the handle's name is present in
the set (in which case remove it), copy the handle's full body to a newly
created output file named after the member".  `extractAll` records whether
the set was empty on entry. -/
def specUnpack (extractAll : Bool) :
    List (List Char × List Nat) → Finset (List Char) →
    List (List Char × List Nat) × Finset (List Char)
  | [], sel => ([], sel)
  | m :: rest, sel =>
    if extractAll ∨ m.1 ∈ sel then
      let (ws, res) := specUnpack extractAll rest (sel.erase m.1)
      (m :: ws, res)
    else specUnpack extractAll rest sel

/-- Effect of a sequence of output-file writes on a directory, later writes
overwriting earlier ones (`File::create` truncates an existing file). -/
def applyWrites (fs : List Char → Option (List Nat)) :
    List (List Char × List Nat) → List Char → Option (List Nat)
  | [], n => fs n
  | w :: ws, n => applyWrites (fun n1 => if n1 = w.1 then some w.2 else fs n1) ws n

/-- Ghost description of a reader mid-archive: `pending` is the suffix of the
current member's body not yet delivered to or skipped for the caller, `rest`
the members whose headers have not been parsed yet.  The stream holds exactly
those bytes, and `member_bytes_left` counts exactly `pending`. -/
def represents (pending : List Nat) (rest : List (List Char × List Nat))
    (r : ArchiveReader) : Prop :=
  r.stream = pending ++ archiveBytes rest ∧ r.member_bytes_left = pending.length

/-! ### Little-endian serialization lemmas -/

theorem leVal_u32le (n : Nat) (h : n < 4294967296) : leVal (u32le n) = n := by
  simp only [leVal, u32le, List.foldr]
  omega

theorem u32le_length (n : Nat) : (u32le n).length = 4 := rfl

theorem flatMap_u16le_length (us : List Nat) :
    (us.flatMap u16le).length = 2 * us.length := by
  induction us with
  | nil => rfl
  | cons u us ih => simp [u16le, List.flatMap_cons, ih]; omega

theorem bytesToU16s_flatMap (us : List Nat) (h : ∀ u ∈ us, u < 65536) :
    bytesToU16s (us.flatMap u16le) = us := by
  induction us with
  | nil => rfl
  | cons u us ih =>
    have hu : u < 65536 := h u (List.mem_cons_self u us)
    have : u % 256 + 256 * (u / 256 % 256) = u := by omega
    simp only [List.flatMap_cons, u16le, List.cons_append, List.nil_append,
      bytesToU16s, this]
    exact congrArg _ (ih fun v hv => h v (List.mem_cons_of_mem u hv))

/-! ### UTF-16 round trip -/

theorem char_scalar (c : Char) :
    (c.toNat < 55296 ∨ 57344 ≤ c.toNat) ∧ c.toNat < 1114112 := by
  have h : c.val.toNat < 55296 ∨ 57343 < c.val.toNat ∧ c.val.toNat < 1114112 :=
    c.valid
  have he : c.toNat = c.val.toNat := rfl
  omega

theorem encodeUtf16Char_units_lt (c : Char) :
    ∀ u ∈ encodeUtf16Char c, u < 65536 := by
  intro u hu
  have hs := char_scalar c
  by_cases hb : c.toNat < 65536
  · simp only [encodeUtf16Char, if_pos hb, List.mem_singleton] at hu
    omega
  · simp only [encodeUtf16Char, if_neg hb, List.mem_cons, List.mem_singleton,
      List.not_mem_nil, or_false] at hu
    have hd : (c.toNat - 65536) / 1024 < 1024 := by omega
    have hm : (c.toNat - 65536) % 1024 < 1024 := Nat.mod_lt _ (by omega)
    rcases hu with hu | hu <;> omega

theorem encodeUtf16Str_units_lt (s : List Char) :
    ∀ u ∈ encodeUtf16Str s, u < 65536 := by
  intro u hu
  simp only [encodeUtf16Str, List.mem_flatMap] at hu
  rcases hu with ⟨c, _, hc⟩
  exact encodeUtf16Char_units_lt c u hc

theorem decodeUtf16_encode_cons (c : Char) (rest : List Nat) :
    decodeUtf16 (encodeUtf16Char c ++ rest) =
      (decodeUtf16 rest).map (fun cs => c :: cs) := by
  have hs := char_scalar c
  by_cases hb : c.toNat < 65536
  · have hcond : c.toNat < 55296 ∨ 57344 ≤ c.toNat := hs.1
    simp only [encodeUtf16Char, if_pos hb, List.cons_append, List.nil_append]
    rw [decodeUtf16.eq_def]
    simp only [if_pos hcond, Char.ofNat_toNat]
  · set v := c.toNat - 65536 with hv
    have hd : v / 1024 < 1024 := by omega
    have hm : v % 1024 < 1024 := Nat.mod_lt _ (by omega)
    have h1 : ¬(55296 + v / 1024 < 55296 ∨ 57344 ≤ 55296 + v / 1024) := by omega
    have h2 : 55296 + v / 1024 < 56320 := by omega
    have h3 : 56320 ≤ 56320 + v % 1024 ∧ 56320 + v % 1024 < 57344 := by omega
    have hval : 65536 + (55296 + v / 1024 - 55296) * 1024 + (56320 + v % 1024 - 56320)
        = c.toNat := by
      have := Nat.div_add_mod v 1024
      omega
    simp only [encodeUtf16Char, if_neg hb, List.cons_append, List.nil_append]
    rw [decodeUtf16.eq_def]
    simp only [if_neg h1, if_pos h2, if_pos h3, hval, Char.ofNat_toNat]

theorem decodeUtf16_encodeUtf16 (s : List Char) :
    decodeUtf16 (encodeUtf16Str s) = some s := by
  induction s with
  | nil =>
    simp only [encodeUtf16Str, List.flatMap_nil]
    exact decodeUtf16.eq_1
  | cons c s ih =>
    simp only [encodeUtf16Str, List.flatMap_cons] at *
    rw [decodeUtf16_encode_cons, ih]
    rfl

/-! ### Reader stepping lemmas -/

theorem finishAux_complete : ∀ (fuel : Nat) (r : ArchiveReader),
    r.member_bytes_left ≤ r.stream.length → r.member_bytes_left ≤ fuel →
    finishAux fuel r = some ⟨r.stream.drop r.member_bytes_left, 0⟩
  | 0, ⟨s, k⟩, hs, hf => by
    have hk : k = 0 := Nat.le_zero.mp hf
    subst hk
    simp [finishAux]
  | fuel + 1, ⟨s, k⟩, hs, hf => by
    by_cases hk : k = 0
    · subst hk; simp [finishAux]
    · have hbr : min (min 4096 k) s.length = min 4096 k := by
        simp only [ArchiveReader.member_bytes_left] at hs
        omega
      have hrec := finishAux_complete fuel ⟨s.drop (min 4096 k), k - min 4096 k⟩
        (by simp only [ArchiveReader.member_bytes_left, ArchiveReader.stream,
              List.length_drop] at *; omega)
        (by simp only [ArchiveReader.member_bytes_left] at *; omega)
      simp only [finishAux, ArchiveReader.member_bytes_left, ArchiveReader.stream,
        if_neg hk, hbr] at hrec ⊢
      rw [hrec]
      simp only [List.drop_drop]
      have : min 4096 k + (k - min 4096 k) = k := by omega
      rw [this]

theorem finishAux_stuck : ∀ (fuel : Nat) (k : Nat), k ≠ 0 →
    finishAux fuel ⟨[], k⟩ = none
  | 0, k, hk => by simp [finishAux, hk]
  | fuel + 1, k, hk => by
    simp only [finishAux, ArchiveReader.member_bytes_left, ArchiveReader.stream,
      if_neg hk, List.length_nil, Nat.min_zero, List.drop_nil, Nat.sub_zero]
    exact finishAux_stuck fuel k hk

theorem next_skip (pending tail : List Nat) :
    (⟨pending ++ tail, pending.length⟩ : ArchiveReader).next
      = (⟨tail, 0⟩ : ArchiveReader).next := by
  unfold ArchiveReader.next ArchiveReader.nextWithFuel
  have h1 : finishAux pending.length ⟨pending ++ tail, pending.length⟩
      = some ⟨tail, 0⟩ := by
    rw [finishAux_complete pending.length _ (by simp) (by simp)]
    simp [List.drop_left]
  have h2 : finishAux 0 ⟨tail, 0⟩ = some ⟨tail, 0⟩ := by simp [finishAux]
  rw [h1, h2]

theorem next_nil : (⟨[], 0⟩ : ArchiveReader).next = some (.ok none) := rfl

theorem read_u32_val (n : Nat) (hn : n < 4294967296) (rest : List Nat) (k : Nat) :
    ArchiveReader.read_u32 ⟨u32le n ++ rest, k⟩ = .ok (some n, ⟨rest, k⟩) := by
  have hlen : (u32le n ++ rest).length = 4 + rest.length := by simp [u32le]; omega
  unfold ArchiveReader.read_u32
  simp only [ArchiveReader.stream, ArchiveReader.member_bytes_left, hlen]
  rw [if_neg (by omega), if_neg (by omega),
    List.take_left' (u32le_length n), List.drop_left' (u32le_length n),
    leVal_u32le n hn]

theorem next_member (name : List Char) (body tail : List Nat)
    (hn : (encodeUtf16Str name).length < 4294967296)
    (hb : body.length < 4294967296) :
    (⟨memberBytes (name, body) ++ tail, 0⟩ : ArchiveReader).next
      = some (.ok (some (⟨name, body.length⟩, ⟨body ++ tail, body.length⟩))) := by
  have hflatlen : ((encodeUtf16Str name).flatMap u16le).length
      = 2 * (encodeUtf16Str name).length := flatMap_u16le_length _
  have hstream : memberBytes (name, body) ++ tail
      = u32le (encodeUtf16Str name).length ++
          ((encodeUtf16Str name).flatMap u16le ++
            (u32le body.length ++ (body ++ tail))) := by
    simp [memberBytes, List.append_assoc]
  rw [hstream]
  have hfin : finishAux 0
      ⟨u32le (encodeUtf16Str name).length ++
          ((encodeUtf16Str name).flatMap u16le ++
            (u32le body.length ++ (body ++ tail))), 0⟩
      = some ⟨u32le (encodeUtf16Str name).length ++
          ((encodeUtf16Str name).flatMap u16le ++
            (u32le body.length ++ (body ++ tail))), 0⟩ := by
    simp [finishAux]
  simp only [ArchiveReader.next, ArchiveReader.nextWithFuel, hfin,
    read_u32_val _ hn]
  rw [if_pos (by simp only [List.length_append, hflatlen]; omega)]
  rw [List.take_left' hflatlen, List.drop_left' hflatlen,
    bytesToU16s_flatMap _ (encodeUtf16Str_units_lt name),
    decodeUtf16_encodeUtf16]
  simp only []
  rw [if_pos (by simp only [List.length_append, u32le_length]; omega)]
  rw [List.take_left' (u32le_length _), List.drop_left' (u32le_length _),
    leVal_u32le _ hb]

/-! ### pack and list -/

theorem packMembers_ok : ∀ ms : List (List Char × List Nat),
    (∀ m ∈ ms, memberOK m) → packMembers ms = (archiveBytes ms, none)
  | [], _ => rfl
  | (name, body) :: rest, hok => by
    have h1 : memberOK (name, body) := hok _ (List.mem_cons_self _ _)
    have hrec := packMembers_ok rest fun m hm => hok m (List.mem_cons_of_mem _ hm)
    simp only [packMembers, if_neg (by exact Nat.not_le.mpr h1.1),
      if_neg (by exact Nat.not_le.mpr h1.2), hrec]
    simp [archiveBytes, memberBytes, List.append_assoc]

theorem memberBytes_length_ge (m : List Char × List Nat) :
    8 ≤ (memberBytes m).length := by
  simp [memberBytes, u32le]
  omega

theorem archiveBytes_length_ge (ms : List (List Char × List Nat)) :
    ms.length ≤ (archiveBytes ms).length := by
  induction ms with
  | nil => simp [archiveBytes]
  | cons m rest ih =>
    have := memberBytes_length_ge m
    simp only [archiveBytes, List.map_cons, List.flatten_cons,
      List.length_append, List.length_cons] at *
    omega

theorem listAux_skip (fuel : Nat) (pending tail : List Nat) :
    listAux fuel ⟨pending ++ tail, pending.length⟩ = listAux fuel ⟨tail, 0⟩ := by
  cases fuel with
  | zero => rfl
  | succ fuel => simp only [listAux, next_skip]

theorem listAux_archive : ∀ (ms : List (List Char × List Nat)),
    (∀ m ∈ ms, memberOK m) → ∀ fuel, ms.length < fuel →
    listAux fuel ⟨archiveBytes ms, 0⟩
      = some (.ok (ms.map fun m => (m.1, m.2.length)))
  | [], _, fuel, hf => by
    cases fuel with
    | zero => omega
    | succ fuel =>
      simp only [archiveBytes, List.map_nil, List.flatten_nil, listAux, next_nil]
  | (name, body) :: rest, hok, fuel, hf => by
    cases fuel with
    | zero => omega
    | succ fuel =>
      have h1 : memberOK (name, body) := hok _ (List.mem_cons_self _ _)
      have hrec := listAux_archive rest
        (fun m hm => hok m (List.mem_cons_of_mem _ hm)) fuel
        (by simp only [List.length_cons] at hf; omega)
      have hab : archiveBytes ((name, body) :: rest)
          = memberBytes (name, body) ++ archiveBytes rest := by
        simp [archiveBytes]
      simp only [hab, listAux, next_member name body _ h1.1 h1.2,
        listAux_skip fuel body (archiveBytes rest), hrec, List.map_cons]

theorem listArchive_eq (ms : List (List Char × List Nat))
    (hok : ∀ m ∈ ms, memberOK m) :
    listArchive (archiveBytes ms)
      = some (.ok (ms.map fun m => (m.1, m.2.length))) := by
  unfold listArchive
  exact listAux_archive ms hok _ (Nat.lt_succ_of_le (archiveBytes_length_ge ms))

/-! ### unpack -/

theorem copyAux_complete : ∀ (fuel : Nat) (r : ArchiveReader),
    r.member_bytes_left ≤ r.stream.length → r.member_bytes_left < fuel →
    copyAux fuel r
      = some (r.stream.take r.member_bytes_left, ⟨r.stream.drop r.member_bytes_left, 0⟩)
  | 0, _, _, hf => by omega
  | fuel + 1, ⟨s, k⟩, hs, hf => by
    simp only [ArchiveReader.member_bytes_left, ArchiveReader.stream] at hs hf ⊢
    by_cases hk : k = 0
    · subst hk
      simp [copyAux, memberRead]
    · have ht : (min (min 8192 k) s.length) = min 8192 k := by omega
      have hlen : (s.take (min 8192 k)).length = min 8192 k := by
        simp only [List.length_take]; omega
      have hrec := copyAux_complete fuel ⟨s.drop (min 8192 k), k - min 8192 k⟩
        (by simp only [ArchiveReader.member_bytes_left, ArchiveReader.stream,
              List.length_drop]; omega)
        (by simp only [ArchiveReader.member_bytes_left]; omega)
      simp only [ArchiveReader.member_bytes_left, ArchiveReader.stream,
        List.drop_drop] at hrec
      simp only [copyAux, memberRead, ArchiveReader.member_bytes_left,
        ArchiveReader.stream, hlen, if_neg (by omega : ¬ min 8192 k = 0), hrec]
      have h1 : min 8192 k + (k - min 8192 k) = k := by omega
      rw [h1, ← List.take_add, h1]

theorem unpackAux_skip (ea : Bool) (fuel : Nat) (pending tail : List Nat)
    (sel : Finset (List Char)) :
    unpackAux ea fuel ⟨pending ++ tail, pending.length⟩ sel
      = unpackAux ea fuel ⟨tail, 0⟩ sel := by
  cases fuel with
  | zero => rfl
  | succ fuel => simp only [unpackAux, next_skip]

theorem unpackAux_archive : ∀ (ms : List (List Char × List Nat)),
    (∀ m ∈ ms, memberOK m) → ∀ (sel : Finset (List Char)) (ea : Bool),
    (ea = true → sel = ∅) → ∀ fuel, ms.length < fuel →
    unpackAux ea fuel ⟨archiveBytes ms, 0⟩ sel
      = some (.ok (specUnpack ea ms sel))
  | [], _, sel, ea, _, fuel, hf => by
    cases fuel with
    | zero => omega
    | succ fuel =>
      simp only [archiveBytes, List.map_nil, List.flatten_nil, unpackAux,
        next_nil, specUnpack]
  | (name, body) :: rest, hok, sel, ea, hea, fuel, hf => by
    cases fuel with
    | zero => omega
    | succ fuel =>
      have h1 : memberOK (name, body) := hok _ (List.mem_cons_self _ _)
      have hrest : rest.length < fuel := by
        simp only [List.length_cons] at hf; omega
      have hab : archiveBytes ((name, body) :: rest)
          = memberBytes (name, body) ++ archiveBytes rest := by
        simp [archiveBytes]
      simp only [hab, unpackAux, next_member name body _ h1.1 h1.2]
      by_cases hcond : (ea = true ∨ name ∈ sel)
      · have hcopy := copyAux_complete (body.length + 1)
          ⟨body ++ archiveBytes rest, body.length⟩ (by simp)
          (by simp only [ArchiveReader.member_bytes_left]; omega)
        simp only [ArchiveReader.member_bytes_left, ArchiveReader.stream,
          List.take_left, List.drop_left] at hcopy
        have hseleq : (if ea = true then sel else sel.erase name)
            = sel.erase name := by
          by_cases hea2 : ea = true
          · rw [if_pos hea2, hea hea2]; simp
          · rw [if_neg hea2]
        have hrec := unpackAux_archive rest
          (fun m hm => hok m (List.mem_cons_of_mem _ hm)) (sel.erase name) ea
          (fun h => by rw [hea h]; simp) fuel hrest
        simp only [if_pos hcond, hseleq, hcopy, hrec, specUnpack, if_pos hcond]
      · have hrec := unpackAux_archive rest
          (fun m hm => hok m (List.mem_cons_of_mem _ hm)) sel ea hea fuel hrest
        simp only [if_neg hcond, unpackAux_skip ea fuel body (archiveBytes rest) sel,
          hrec, specUnpack, if_neg hcond]

theorem unpackArchive_eq (ms : List (List Char × List Nat))
    (hok : ∀ m ∈ ms, memberOK m) (sel : Finset (List Char)) :
    unpackArchive (archiveBytes ms) sel
      = some (.ok (specUnpack (sel = ∅) ms sel)) := by
  unfold unpackArchive
  exact unpackAux_archive ms hok sel _ (fun h => of_decide_eq_true h) _
    (Nat.lt_succ_of_le (archiveBytes_length_ge ms))

/-! ### Properties of the extraction recursion -/

theorem specUnpack_residual : ∀ (ea : Bool) (ms : List (List Char × List Nat))
    (sel : Finset (List Char)),
    (specUnpack ea ms sel).2 = sel.filter (fun n => ∀ m ∈ ms, m.1 ≠ n)
  | ea, [], sel => by
    simp [specUnpack]
  | ea, m :: rest, sel => by
    by_cases hcond : (ea = true ∨ m.1 ∈ sel)
    · have hrec := specUnpack_residual ea rest (sel.erase m.1)
      simp only [specUnpack, if_pos hcond, hrec]
      ext n
      simp only [Finset.mem_filter, Finset.mem_erase, List.mem_cons]
      constructor
      · rintro ⟨⟨hne, hn⟩, hall⟩
        exact ⟨hn, fun m' hm' => by
          rcases hm' with h | h
          · subst h; exact fun he => hne he.symm
          · exact hall m' h⟩
      · rintro ⟨hn, hall⟩
        exact ⟨⟨fun he => hall m (Or.inl rfl) he.symm, hn⟩,
          fun m' hm' => hall m' (Or.inr hm')⟩
    · have hm1 : m.1 ∉ sel := fun h => hcond (Or.inr h)
      have hrec := specUnpack_residual ea rest sel
      simp only [specUnpack, if_neg hcond, hrec]
      ext n
      simp only [Finset.mem_filter, List.mem_cons]
      constructor
      · rintro ⟨hn, hall⟩
        exact ⟨hn, fun m' hm' => by
          rcases hm' with h | h
          · subst h; exact fun he => hm1 (he ▸ hn)
          · exact hall m' h⟩
      · rintro ⟨hn, hall⟩
        exact ⟨hn, fun m' hm' => hall m' (Or.inr hm')⟩

theorem specUnpack_writes_extractAll :
    ∀ (ms : List (List Char × List Nat)) (sel : Finset (List Char)),
    (specUnpack true ms sel).1 = ms
  | [], sel => rfl
  | m :: rest, sel => by
    simp only [specUnpack, if_pos (Or.inl rfl : true = true ∨ m.1 ∈ sel)]
    exact congrArg _ (specUnpack_writes_extractAll rest (sel.erase m.1))

theorem specUnpack_writes_filter (x : List Char) :
    ∀ (ms : List (List Char × List Nat)) (sel : Finset (List Char)),
    ((specUnpack false ms sel).1.filter (fun m => decide (m.1 = x)))
      = if x ∈ sel then (ms.find? (fun m => decide (m.1 = x))).toList else []
  | [], sel => by simp [specUnpack]
  | m :: rest, sel => by
    have hfalse : ¬((false = true) ∨ m.1 ∈ sel) ↔ m.1 ∉ sel := by simp
    by_cases hmem : m.1 ∈ sel
    · have hrec := specUnpack_writes_filter x rest (sel.erase m.1)
      simp only [specUnpack, if_pos (Or.inr hmem : false = true ∨ m.1 ∈ sel)]
      by_cases hx : m.1 = x
      · subst hx
        have hnotin : m.1 ∉ sel.erase m.1 := Finset.not_mem_erase _ _
        simp only [List.filter_cons, decide_eq_true_eq, if_pos rfl, hrec,
          if_neg hnotin, if_pos hmem, List.find?_cons, decide_eq_true_eq]
        simp
      · have hin : x ∈ sel.erase m.1 ↔ x ∈ sel := by
          rw [Finset.mem_erase]
          exact ⟨fun h => h.2, fun h => ⟨fun he => hx he.symm, h⟩⟩
        simp only [List.filter_cons, decide_eq_true_eq, if_neg hx, hrec]
        by_cases hxs : x ∈ sel
        · simp only [if_pos (hin.mpr hxs), if_pos hxs, List.find?_cons]
          have : (decide (m.1 = x)) = false := by simp [hx]
          simp [this]
        · rw [if_neg (fun h => hxs (hin.mp h)), if_neg hxs]
    · have hrec := specUnpack_writes_filter x rest sel
      simp only [specUnpack, if_neg (hfalse.mpr hmem), hrec]
      by_cases hxs : x ∈ sel
      · have hx : m.1 ≠ x := fun he => hmem (he ▸ hxs)
        simp only [if_pos hxs, List.find?_cons]
        have : (decide (m.1 = x)) = false := by simp [hx]
        simp [this]
      · simp [if_neg hxs]

theorem applyWrites_eq_find : ∀ (ws : List (List Char × List Nat))
    (fs : List Char → Option (List Nat)) (n : List Char),
    applyWrites fs ws n
      = match ws.reverse.find? (fun w => decide (w.1 = n)) with
        | some w => some w.2
        | none => fs n
  | [], fs, n => by simp [applyWrites]
  | w :: ws, fs, n => by
    have hrec := applyWrites_eq_find ws
      (fun n1 => if n1 = w.1 then some w.2 else fs n1) n
    simp only [applyWrites, hrec, List.reverse_cons, List.find?_append]
    cases hfind : ws.reverse.find? (fun v => decide (v.1 = n)) with
    | some v => simp [Option.or]
    | none =>
      simp only [Option.or, List.find?]
      by_cases hw : w.1 = n
      · simp [hw]
      · have h1 : (decide (w.1 = n)) = false := by simp [hw]
        have h2 : ¬(n = w.1) := fun h => hw h.symm
        simp [h1, h2]

theorem encodeUtf16Str_replicate (n : Nat) :
    (encodeUtf16Str (List.replicate n 'a')).length = n := by
  induction n with
  | zero => rfl
  | succ n ih =>
    simp only [List.replicate_succ, encodeUtf16Str, List.flatMap_cons,
      List.length_append] at *
    rw [ih]
    have h1 : (encodeUtf16Char 'a').length = 1 := rfl
    omega

/-! ### Claims -/

/-- C1: the spec asks for a truncation error when a member's declared body
size exceeds the bytes remaining in the stream; the code instead returns
`Ok(0)` from `Member::read` with `member_bytes_left` still nonzero, and the
auto-skip loop in `finish_current_member` never terminates (no fuel bound
ever completes it), since the decoder keeps returning 0 at end of stream. -/
theorem truncated_member_behavior :
    ((⟨u32le 1 ++ (u16le 97 ++ (u32le 5 ++ [1, 2])), 0⟩ : ArchiveReader).next
        = some (.ok (some (⟨['a'], 5⟩, ⟨[1, 2], 5⟩)))) ∧
    memberRead ⟨[1, 2], 5⟩ 4096 = ([1, 2], ⟨[], 3⟩) ∧
    memberRead ⟨[], 3⟩ 4096 = ([], ⟨[], 3⟩) ∧
    ∀ fuel, finishAux fuel ⟨[], 3⟩ = none :=
  ⟨rfl, rfl, rfl, fun fuel => finishAux_stuck fuel 3 (by omega)⟩

/-- C2: packing a list of in-bounds members and listing the produced stream
reports exactly the members' names paired with their body lengths, in input
order. -/
theorem pack_list_roundtrip (ms : List (List Char × List Nat))
    (hok : ∀ m ∈ ms, memberOK m) :
    packMembers ms = (archiveBytes ms, none) ∧
    listArchive (packMembers ms).1
      = some (.ok (ms.map fun m => (m.1, m.2.length))) := by
  have h1 := packMembers_ok ms hok
  exact ⟨h1, by rw [h1]; exact listArchive_eq ms hok⟩

theorem pack_list_roundtrip_witness :
    (∀ m ∈ [((['a'] : List Char), ([1, 2, 3] : List Nat)), (['b', 'c'], [])],
      memberOK m) ∧
    packMembers [(['a'], [1, 2, 3]), (['b', 'c'], [])]
      = (archiveBytes [(['a'], [1, 2, 3]), (['b', 'c'], [])], none) ∧
    listArchive (packMembers [(['a'], [1, 2, 3]), (['b', 'c'], [])]).1
      = some (.ok ([(['a'], [1, 2, 3]), (['b', 'c'], [])].map
          fun m => (m.1, m.2.length))) := by
  have hok : ∀ m ∈ [((['a'] : List Char), ([1, 2, 3] : List Nat)),
      (['b', 'c'], [])], memberOK m := by
    intro m hm
    fin_cases hm <;> exact ⟨by decide, by decide⟩
  have h := pack_list_roundtrip _ hok
  exact ⟨hok, h.1, h.2⟩

/-- C3: with no body bytes pending, `next()` hitting exactly end-of-stream
before any byte of the name-length field yields "no more members" (`None`),
while a stream that ends after one to three bytes of the field yields an
`UnexpectedEof` truncation error. -/
theorem read_u32_eof_behavior (r : ArchiveReader)
    (h0 : r.member_bytes_left = 0) :
    (r.stream.length = 0 → r.next = some (.ok none)) ∧
    (1 ≤ r.stream.length → r.stream.length < 4 →
      r.next = some (.error (.unexpectedEof "EOF within archive member"))) := by
  have hnext : r.next = r.nextWithFuel 0 := by rw [ArchiveReader.next, h0]
  have hfin : finishAux 0 r = some r := by simp [finishAux, h0]
  constructor
  · intro hlen
    have hru : r.read_u32 = .ok (none, r) := by
      unfold ArchiveReader.read_u32
      rw [if_pos hlen]
    simp only [hnext, ArchiveReader.nextWithFuel, hfin, hru]
  · intro h1 h4
    have hru : r.read_u32
        = .error (.unexpectedEof "EOF within archive member") := by
      unfold ArchiveReader.read_u32
      rw [if_neg (by omega), if_pos h4]
    simp only [hnext, ArchiveReader.nextWithFuel, hfin, hru]

theorem read_u32_eof_behavior_witness :
    ((⟨[], 0⟩ : ArchiveReader).next = some (.ok none)) ∧
    ((⟨[9, 9], 0⟩ : ArchiveReader).next
      = some (.error (.unexpectedEof "EOF within archive member"))) :=
  ⟨(read_u32_eof_behavior ⟨[], 0⟩ rfl).1 rfl,
    (read_u32_eof_behavior ⟨[9, 9], 0⟩ rfl).2 (by decide) (by decide)⟩

/-- C4: a `Member::read` call on a buffer of length `bufLen` delivers at most
`min bufLen member_bytes_left` bytes, which come from the front of the
underlying stream; `member_bytes_left` drops by exactly the delivered count
and the stream advances past exactly the delivered bytes. -/
theorem member_read_accounting (r : ArchiveReader) (bufLen : Nat) :
    ((memberRead r bufLen).1).length ≤ min bufLen r.member_bytes_left ∧
    (memberRead r bufLen).1 = r.stream.take (min bufLen r.member_bytes_left) ∧
    (memberRead r bufLen).2.member_bytes_left
      = r.member_bytes_left - ((memberRead r bufLen).1).length ∧
    (memberRead r bufLen).2.stream
      = r.stream.drop (min bufLen r.member_bytes_left) := by
  cases r with
  | mk s k =>
    refine ⟨?_, rfl, rfl, rfl⟩
    simp only [memberRead, ArchiveReader.member_bytes_left, ArchiveReader.stream,
      List.length_take]
    omega

/-- C5: a `Member::read` call with an empty buffer succeeds, returns 0 bytes
and leaves the reader state untouched; it is not an end-of-stream signal. -/
theorem member_read_empty_buffer (r : ArchiveReader) :
    memberRead r 0 = ([], r) := by
  cases r with
  | mk s k => simp [memberRead]

theorem packMembers_oversize_name : ∀ (pre : List (List Char × List Nat))
    (name : List Char) (body : List Nat) (rest : List (List Char × List Nat)),
    (∀ m ∈ pre, memberOK m) → 4294967296 ≤ (encodeUtf16Str name).length →
    packMembers (pre ++ (name, body) :: rest)
      = (archiveBytes pre, some .nameTooLong)
  | [], name, body, rest, _, hname => by
    simp only [List.nil_append, packMembers, if_pos hname, archiveBytes,
      List.map_nil, List.flatten_nil]
  | m :: pre, name, body, rest, hok, hname => by
    obtain ⟨nm, bd⟩ := m
    have h1 : memberOK (nm, bd) := hok _ (List.mem_cons_self _ _)
    have hrec := packMembers_oversize_name pre name body rest
      (fun v hv => hok v (List.mem_cons_of_mem _ hv)) hname
    simp only [List.cons_append, packMembers, if_neg (Nat.not_le.mpr h1.1),
      if_neg (Nat.not_le.mpr h1.2)]
    simp [hrec, archiveBytes, memberBytes, List.append_assoc]

/-- C7: `pack` on a list whose member at some position has a name of 2^32 or
more UTF-16 code units fails with the oversize-name error having written the
serialization of exactly the earlier members — no byte of the offending
member reaches the stream. -/
theorem pack_oversize_name_aborts (pre : List (List Char × List Nat))
    (name : List Char) (body : List Nat) (rest : List (List Char × List Nat))
    (hok : ∀ m ∈ pre, memberOK m)
    (hname : 4294967296 ≤ (encodeUtf16Str name).length) :
    packMembers (pre ++ (name, body) :: rest)
      = (archiveBytes pre, some .nameTooLong) :=
  packMembers_oversize_name pre name body rest hok hname

theorem pack_oversize_name_aborts_witness :
    packMembers [(List.replicate 4294967296 'a', ([] : List Nat))]
      = (archiveBytes [], some .nameTooLong) :=
  pack_oversize_name_aborts [] (List.replicate 4294967296 'a') [] []
    (by simp) (by rw [encodeUtf16Str_replicate])

/-- C9: a member name — including names with non-ASCII and supplementary
plane characters — survives the full wire trip: UTF-16 encoding in `pack`,
byte serialization, byte regrouping and UTF-16 decoding in `next()` return
the original name exactly. -/
theorem utf16_roundtrip (name : List Char) :
    decodeUtf16 (bytesToU16s ((encodeUtf16Str name).flatMap u16le))
      = some name := by
  rw [bytesToU16s_flatMap _ (encodeUtf16Str_units_lt name),
    decodeUtf16_encodeUtf16]

/-- C6: `unpack` refines the spec's extraction rule — a member's body is
copied to an output file exactly when the set was empty on entry or the
member's name is currently in the set (removed on the match), bodies of
non-selected members are never copied, and the residual set holds exactly the
requested names never present in the archive, with no error. -/
theorem unpack_selection_correct (ms : List (List Char × List Nat))
    (hok : ∀ m ∈ ms, memberOK m) (sel : Finset (List Char)) :
    unpackArchive (archiveBytes ms) sel
      = some (.ok (specUnpack (sel = ∅) ms sel)) ∧
    (specUnpack (sel = ∅) ms sel).2
      = sel.filter (fun n => ∀ m ∈ ms, m.1 ≠ n) :=
  ⟨unpackArchive_eq ms hok sel, specUnpack_residual _ ms sel⟩

theorem unpack_selection_correct_witness :
    unpackArchive (archiveBytes [(['a'], [1]), (['b'], [2])]) {['a'], ['z']}
      = some (.ok (specUnpack (({['a'], ['z']} : Finset (List Char)) = ∅)
          [(['a'], [1]), (['b'], [2])] {['a'], ['z']})) ∧
    (specUnpack (({['a'], ['z']} : Finset (List Char)) = ∅)
        [(['a'], [1]), (['b'], [2])] {['a'], ['z']}).2
      = ({['a'], ['z']} : Finset (List Char)).filter
          (fun n => ∀ m ∈ [((['a'] : List Char), ([1] : List Nat)),
            (['b'], [2])], m.1 ≠ n) := by
  have hok : ∀ m ∈ [((['a'] : List Char), ([1] : List Nat)), (['b'], [2])],
      memberOK m := by
    intro m hm
    fin_cases hm <;> exact ⟨by decide, by decide⟩
  exact unpack_selection_correct _ hok _

/-- C8: invariant of the reader cursor over every operation.  In any state
described by a ghost decomposition (undelivered body suffix `pending`,
unparsed members `rest`), `member_bytes_left` equals exactly the undelivered
byte count, it is zero exactly at a header boundary, `Member::read` keeps the
description in step with delivery, the auto-skip drains exactly `pending`,
and `next()` skips to the boundary and resets the counter to the new
member's declared size. -/
theorem reader_cursor_invariant (pending : List Nat)
    (rest : List (List Char × List Nat)) (r : ArchiveReader)
    (hok : ∀ m ∈ rest, memberOK m) (hrep : represents pending rest r) :
    r.member_bytes_left = pending.length ∧
    (r.member_bytes_left = 0 ↔ pending = []) ∧
    (∀ bufLen, ((memberRead r bufLen).1).length = min bufLen pending.length ∧
      represents (pending.drop (min bufLen pending.length)) rest
        (memberRead r bufLen).2) ∧
    (finishAux r.member_bytes_left r = some ⟨archiveBytes rest, 0⟩ ∧
      represents [] rest ⟨archiveBytes rest, 0⟩) ∧
    (rest = [] → r.next = some (.ok none)) ∧
    (∀ m rest2, rest = m :: rest2 →
      r.next = some (.ok (some (⟨m.1, m.2.length⟩,
        ⟨m.2 ++ archiveBytes rest2, m.2.length⟩))) ∧
      represents m.2 rest2 ⟨m.2 ++ archiveBytes rest2, m.2.length⟩ ∧
      (⟨m.2 ++ archiveBytes rest2, m.2.length⟩ : ArchiveReader).member_bytes_left
        = m.2.length) := by
  obtain ⟨s, k⟩ := r
  obtain ⟨hs, hk⟩ := hrep
  simp only [ArchiveReader.stream, ArchiveReader.member_bytes_left] at hs hk
  subst hs
  subst hk
  refine ⟨rfl, List.length_eq_zero, ?_, ?_, ?_, ?_⟩
  · intro bufLen
    have ht : min bufLen pending.length ≤ pending.length := Nat.min_le_right _ _
    have hlen : ((pending ++ archiveBytes rest).take
        (min bufLen pending.length)).length = min bufLen pending.length := by
      simp only [List.length_take, List.length_append]
      omega
    refine ⟨hlen, ?_, ?_⟩
    · simp only [memberRead, ArchiveReader.stream, ArchiveReader.member_bytes_left,
        List.drop_append_of_le_length ht]
    · simp only [memberRead, ArchiveReader.stream, ArchiveReader.member_bytes_left,
        hlen, List.length_drop]
  · constructor
    · rw [finishAux_complete _ _ (by simp) le_rfl]
      simp only [ArchiveReader.stream, ArchiveReader.member_bytes_left,
        List.drop_left]
    · exact ⟨by simp, rfl⟩
  · intro hre
    subst hre
    rw [next_skip]
    exact next_nil
  · intro m rest2 hre
    subst hre
    obtain ⟨nm, bd⟩ := m
    have hab : archiveBytes ((nm, bd) :: rest2)
        = memberBytes (nm, bd) ++ archiveBytes rest2 := by
      simp [archiveBytes]
    have h1 : memberOK (nm, bd) := hok _ (List.mem_cons_self _ _)
    refine ⟨?_, ⟨rfl, rfl⟩, rfl⟩
    rw [hab, next_skip, next_member nm bd _ h1.1 h1.2]

theorem reader_cursor_invariant_witness :
    (⟨[7, 8] ++ archiveBytes [(['a'], [9])], 2⟩ : ArchiveReader).member_bytes_left
      = ([7, 8] : List Nat).length ∧
    ((⟨[7, 8] ++ archiveBytes [(['a'], [9])], 2⟩ : ArchiveReader).member_bytes_left
        = 0 ↔ ([7, 8] : List Nat) = []) := by
  have h := reader_cursor_invariant [7, 8] [(['a'], [9])]
    ⟨[7, 8] ++ archiveBytes [(['a'], [9])], 2⟩
    (by intro m hm; fin_cases hm; exact ⟨by decide, by decide⟩) ⟨rfl, rfl⟩
  exact ⟨h.1, h.2.1⟩

/-- C10: in an archive with duplicate names, a non-empty selection set
containing that name extracts only the first member so named (the writes
carrying that name are exactly the archive's first such member), while with
an empty set every occurrence is written and the final file content is the
last occurrence's body, later writes overwriting earlier ones. -/
theorem unpack_duplicate_names (ms : List (List Char × List Nat))
    (hok : ∀ m ∈ ms, memberOK m) (x : List Char)
    (hdup : 2 ≤ ms.countP (fun m => decide (m.1 = x))) :
    (∀ sel : Finset (List Char), sel ≠ ∅ → x ∈ sel →
      ∃ W R, unpackArchive (archiveBytes ms) sel = some (.ok (W, R)) ∧
        W.filter (fun m => decide (m.1 = x))
          = (ms.find? (fun m => decide (m.1 = x))).toList) ∧
    (∃ W R, unpackArchive (archiveBytes ms) ∅ = some (.ok (W, R)) ∧ W = ms ∧
      ∃ mlast, ms.reverse.find? (fun m => decide (m.1 = x)) = some mlast ∧
        ∀ fs, applyWrites fs W x = some mlast.2) := by
  constructor
  · intro sel hne hx
    have h := unpackArchive_eq ms hok sel
    have hdec : (decide (sel = ∅)) = false := decide_eq_false hne
    rw [hdec] at h
    refine ⟨(specUnpack false ms sel).1, (specUnpack false ms sel).2, ?_, ?_⟩
    · rw [h]
    · rw [specUnpack_writes_filter x ms sel, if_pos hx]
  · have h := unpackArchive_eq ms hok ∅
    have hdec : (decide ((∅ : Finset (List Char)) = ∅)) = true := by simp
    rw [hdec] at h
    have hW := specUnpack_writes_extractAll ms ∅
    have hpos : 0 < ms.countP (fun m => decide (m.1 = x)) := by omega
    obtain ⟨a, ha, hpa⟩ := List.countP_pos_iff.mp hpos
    have hsome : (ms.reverse.find? (fun m => decide (m.1 = x))).isSome := by
      rw [List.find?_isSome]
      exact ⟨a, List.mem_reverse.mpr ha, hpa⟩
    obtain ⟨mlast, hmlast⟩ := Option.isSome_iff_exists.mp hsome
    refine ⟨(specUnpack true ms ∅).1, (specUnpack true ms ∅).2, by rw [h], hW,
      mlast, hmlast, ?_⟩
    intro fs
    rw [hW, applyWrites_eq_find ms fs x, hmlast]

theorem unpack_duplicate_names_witness :
    (∃ W R, unpackArchive
        (archiveBytes [(['a'], [1]), (['b'], [2]), (['a'], [3])]) {['a'], ['c']}
        = some (.ok (W, R)) ∧
      W.filter (fun m => decide (m.1 = ['a']))
        = ([(['a'], [1]), (['b'], [2]), (['a'], [3])].find?
            (fun m => decide (m.1 = ['a']))).toList) ∧
    (∃ W R, unpackArchive
        (archiveBytes [(['a'], [1]), (['b'], [2]), (['a'], [3])]) ∅
        = some (.ok (W, R)) ∧ W = [(['a'], [1]), (['b'], [2]), (['a'], [3])] ∧
      ∃ mlast, [(['a'], [1]), (['b'], [2]), (['a'], [3])].reverse.find?
          (fun m => decide (m.1 = ['a'])) = some mlast ∧
        ∀ fs, applyWrites fs W ['a'] = some mlast.2) := by
  have hok : ∀ m ∈ [((['a'] : List Char), ([1] : List Nat)), (['b'], [2]),
      (['a'], [3])], memberOK m := by
    intro m hm
    fin_cases hm <;> exact ⟨by decide, by decide⟩
  have h := unpack_duplicate_names _ hok ['a'] (by decide)
  exact ⟨h.1 {['a'], ['c']} (by decide) (by decide), h.2⟩
